import Mathlib

/-!
Shallow embedding of the ya-regex automaton core (src/nfa.rs, src/regex.rs,
src/dfa.rs) and proofs about it.

Modelling conventions:
* Rust `HashMap` values are modelled as association lists (`alookup`,
  `ainsert`, `aextend` below) whose key order is insertion order; `insert`
  overwrites the value of an existing key in place, `extend` folds `insert`
  over the other map, so later bindings win exactly as in Rust.
* Rust `HashSet<NfaState>` is modelled as `Finset ℕ`; all uses in the source
  are order-insensitive (unions, membership, difference).
* State identifiers (`NfaState(u32)`) are modelled as `ℕ`; the allocation
  counter only ever increments by one per allocation.
* The two worklist fixpoint loops (`epsilon_next` in regex.rs and the subset
  construction loop of `Dfa::from`) are modelled with an explicit fuel
  argument; the fuel passed by the wrappers is proved sufficient for the loop
  to reach its empty-frontier exit, so the embedding computes the same
  fixpoint the Rust loop does.
* Iteration order over a `HashSet`/`HashMap` is unspecified in Rust; where the
  source iterates (the subset-construction worklist, `transition_map_of`),
  the embedding fixes a concrete order (discovery order, state-table order).
  All proved properties are order-insensitive.
-/

/-- Association-list model of Rust `HashMap` lookup (`get`). -/
def alookup {α β : Type} [DecidableEq α] : List (α × β) → α → Option β
  | [], _ => none
  | (k, v) :: t, x => if x = k then some v else alookup t x

/-- Association-list model of Rust `HashMap::insert`: replace the binding of an
existing key in place, otherwise append the new binding. -/
def ainsert {α β : Type} [DecidableEq α] : List (α × β) → α → β → List (α × β)
  | [], k, v => [(k, v)]
  | (k', v') :: t, k, v => if k = k' then (k, v) :: t else (k', v') :: ainsert t k v

/-- Association-list model of Rust `HashMap::extend`: insert every binding of
`o` into `m`, so bindings of `o` win on common keys. -/
def aextend {α β : Type} [DecidableEq α] (m o : List (α × β)) : List (α × β) :=
  o.foldl (fun acc kv => ainsert acc kv.1 kv.2) m

/-- Keys of an association list. -/
def akeys {α β : Type} (m : List (α × β)) : List α := m.map Prod.fst

theorem alookup_ainsert {α β : Type} [DecidableEq α] (m : List (α × β)) (k : α) (v : β)
    (x : α) : alookup (ainsert m k v) x = if x = k then some v else alookup m x := by
  induction m with
  | nil => simp [ainsert, alookup]
  | cons hd t ih =>
    obtain ⟨k', v'⟩ := hd
    by_cases hk : k = k'
    · subst hk
      by_cases hx : x = k <;> simp [ainsert, alookup, hx]
    · simp only [ainsert, if_neg hk]
      by_cases hx : x = k'
      · subst hx
        simp [alookup, Ne.symm hk]
      · simp [alookup, hx, ih]

theorem alookup_eq_none_of_not_mem_akeys {α β : Type} [DecidableEq α]
    (m : List (α × β)) (x : α) (h : x ∉ akeys m) : alookup m x = none := by
  induction m with
  | nil => rfl
  | cons hd t ih =>
    simp only [akeys, List.map_cons, List.mem_cons] at h
    push_neg at h
    simp only [alookup, if_neg h.1]
    exact ih (by simpa [akeys] using h.2)

theorem mem_akeys_of_alookup_isSome {α β : Type} [DecidableEq α]
    (m : List (α × β)) (x : α) (h : (alookup m x).isSome) : x ∈ akeys m := by
  by_contra hx
  rw [alookup_eq_none_of_not_mem_akeys m x hx] at h
  simp at h

theorem alookup_mem {α β : Type} [DecidableEq α] (m : List (α × β)) (x : α) (v : β)
    (h : alookup m x = some v) : (x, v) ∈ m := by
  induction m with
  | nil => simp [alookup] at h
  | cons hd t ih =>
    obtain ⟨k', v'⟩ := hd
    by_cases hx : x = k'
    · subst hx
      simp only [alookup, if_pos rfl, Option.some.injEq] at h
      simp at h
      subst h
      exact List.mem_cons_self _ _
    · simp only [alookup, if_neg hx] at h
      exact List.mem_cons_of_mem _ (ih h)

theorem mem_akeys_ainsert {α β : Type} [DecidableEq α] (m : List (α × β)) (k : α) (v : β)
    (x : α) : x ∈ akeys (ainsert m k v) ↔ x = k ∨ x ∈ akeys m := by
  induction m with
  | nil => simp [ainsert, akeys]
  | cons hd t ih =>
    obtain ⟨k', v'⟩ := hd
    by_cases hk : k = k'
    · subst hk
      show x ∈ akeys (if k = k then (k, v) :: t else (k, v') :: ainsert t k v) ↔ _
      rw [if_pos rfl]
      simp [akeys]
    · simp only [ainsert, if_neg hk, akeys, List.map_cons, List.mem_cons]
      rw [show (ainsert t k v).map Prod.fst = akeys (ainsert t k v) from rfl, ih]
      simp [akeys]
      tauto

theorem akeys_ainsert_nodup {α β : Type} [DecidableEq α] (m : List (α × β)) (k : α) (v : β)
    (h : (akeys m).Nodup) : (akeys (ainsert m k v)).Nodup := by
  induction m with
  | nil => simp [ainsert, akeys]
  | cons hd t ih =>
    obtain ⟨k', v'⟩ := hd
    simp only [akeys, List.map_cons, List.nodup_cons] at h
    by_cases hk : k = k'
    · subst hk
      show (akeys (if k = k then (k, v) :: t else (k, v') :: ainsert t k v)).Nodup
      rw [if_pos rfl]
      simpa [akeys] using h
    · simp only [ainsert, if_neg hk, akeys, List.map_cons, List.nodup_cons]
      constructor
      · intro hmem
        have : k' ∈ akeys (ainsert t k v) := by simpa [akeys] using hmem
        rcases (mem_akeys_ainsert t k v k').mp this with h1 | h2
        · exact hk h1.symm
        · exact h.1 (by simpa [akeys] using h2)
      · exact ih h.2

theorem akeys_aextend_nodup {α β : Type} [DecidableEq α] (m o : List (α × β))
    (h : (akeys m).Nodup) : (akeys (aextend m o)).Nodup := by
  induction o generalizing m with
  | nil => simpa [aextend]
  | cons hd t ih =>
    simp only [aextend, List.foldl_cons]
    exact ih _ (akeys_ainsert_nodup _ _ _ h)

theorem alookup_aextend {α β : Type} [DecidableEq α] (m o : List (α × β)) (x : α)
    (ho : (akeys o).Nodup) :
    alookup (aextend m o) x =
      match alookup o x with
      | some v => some v
      | none => alookup m x := by
  induction o generalizing m with
  | nil => simp [aextend, alookup]
  | cons hd t ih =>
    obtain ⟨k, v⟩ := hd
    simp only [akeys, List.map_cons, List.nodup_cons] at ho
    simp only [aextend, List.foldl_cons]
    rw [show (t.foldl (fun acc kv => ainsert acc kv.1 kv.2) (ainsert m k v)) =
      aextend (ainsert m k v) t from rfl, ih _ ho.2]
    by_cases hx : x = k
    · subst hx
      rw [alookup_eq_none_of_not_mem_akeys t x (by simpa [akeys] using ho.1)]
      simp [alookup, alookup_ainsert]
    · simp only [alookup, if_neg hx]
      cases alookup t x with
      | none => simp [alookup_ainsert, hx]
      | some w => rfl

theorem alookup_aextend_isSome {α β : Type} [DecidableEq α] (m o : List (α × β)) (x : α)
    (h : (alookup (aextend m o) x).isSome) :
    (alookup m x).isSome ∨ (alookup o x).isSome := by
  induction o generalizing m with
  | nil => exact Or.inl h
  | cons hd t ih =>
    simp only [aextend, List.foldl_cons] at h
    rcases ih (ainsert m hd.1 hd.2) h with h1 | h2
    · rw [alookup_ainsert] at h1
      by_cases hx : x = hd.1
      · right
        obtain ⟨k, v⟩ := hd
        simp only [alookup, if_pos hx]
        rfl
      · left
        simpa [if_neg hx] using h1
    · right
      obtain ⟨k, v⟩ := hd
      by_cases hx : x = k
      · simp [alookup, if_pos hx]
      · simpa [alookup, if_neg hx] using h2

/-- AST node, from parser.rs (`Node`): literal char, concatenation,
alternation, zero-or-more repeat. -/
inductive Node : Type
  | Char (c : Char)
  | Concat (n1 n2 : Node)
  | Or (n1 n2 : Node)
  | Repeat (n : Node)

/-- Transition label, from nfa.rs (`NfaTrans`): epsilon or a literal char. -/
inductive NfaTrans : Type
  | Epsilon
  | Char (c : Char)
deriving DecidableEq

/-- Transition table of one NFA state: `HashMap<NfaTrans, HashSet<NfaState>>`. -/
abbrev TransTable : Type := List (NfaTrans × Finset ℕ)

/-- The NFA of nfa.rs: one start state, one accept state, and the state →
(label → destination set) table (`HashMap<NfaState, HashMap<NfaTrans, HashSet<NfaState>>>`). -/
structure Nfa : Type where
  start : ℕ
  states : List (ℕ × TransTable)
  accept : ℕ
deriving DecidableEq

namespace Nfa

/-- Env.next of nfa.rs: `count += 1; NfaState(count)`. Returns the allocated
state and the updated counter. -/
def envNext (count : ℕ) : ℕ × ℕ := (count + 1, count + 1)

/-- Nfa::new_char: start --c--> accept. -/
def new_char (c : Char) (count : ℕ) : Nfa × ℕ :=
  let (start, count) := envNext count
  let (accept, count) := envNext count
  let start_trans : TransTable := ainsert [] (NfaTrans.Char c) {accept}
  ({ start := start, states := ainsert [] start start_trans, accept := accept }, count)

/-- Nfa::new (recursive Thompson construction), with the three composite rules
inlined as in nfa.rs: new_concat, new_or, new_repeat. -/
def new : Node → ℕ → Nfa × ℕ
  | Node.Char c, count => new_char c count
  | Node.Concat n1 n2, count =>
    let (start, count) := envNext count
    let (accept, count) := envNext count
    let (nfa1, count) := new n1 count
    let (nfa2, count) := new n2 count
    let start_trans : TransTable := ainsert [] NfaTrans.Epsilon {nfa1.start}
    let trans : TransTable := ainsert [] NfaTrans.Epsilon {nfa2.start}
    let nfa2_accept_trans : TransTable := ainsert [] NfaTrans.Epsilon {accept}
    let states := ainsert [] start start_trans
    let states := ainsert states nfa1.accept trans
    let states := ainsert states nfa2.accept nfa2_accept_trans
    let states := aextend states nfa1.states
    let states := aextend states nfa2.states
    ({ start := start, states := states, accept := accept }, count)
  | Node.Or n1 n2, count =>
    let (start, count) := envNext count
    let (accept, count) := envNext count
    let (nfa1, count) := new n1 count
    let (nfa2, count) := new n2 count
    let start_trans : TransTable := ainsert [] NfaTrans.Epsilon {nfa1.start, nfa2.start}
    let a1_trans : TransTable := ainsert [] NfaTrans.Epsilon {accept}
    let a2_trans : TransTable := ainsert [] NfaTrans.Epsilon {accept}
    let states := ainsert [] start start_trans
    let states := ainsert states nfa1.accept a1_trans
    let states := ainsert states nfa2.accept a2_trans
    let states := aextend states nfa1.states
    let states := aextend states nfa2.states
    ({ start := start, states := states, accept := accept }, count)
  | Node.Repeat n, count =>
    let (start, count) := envNext count
    let (accept, count) := envNext count
    let (nfa, count) := new n count
    let start_trans : TransTable := ainsert [] NfaTrans.Epsilon {accept, nfa.start}
    let a_trans : TransTable := ainsert [] NfaTrans.Epsilon {start, accept}
    let states := ainsert [] start start_trans
    let states := ainsert states nfa.accept a_trans
    let states := aextend states nfa.states
    ({ start := start, states := states, accept := accept }, count)

/-- From<Node> for Nfa: compile with a fresh counter. -/
def ofNode (n : Node) : Nfa := (new n 0).1

end Nfa

namespace Nfa

/-- Epsilon destinations of one state: the set stored under `Epsilon` in the
state's transition table, empty when absent. -/
def epsDest (nfa : Nfa) (s : ℕ) : Finset ℕ :=
  match alookup nfa.states s with
  | none => ∅
  | some tt => match alookup tt NfaTrans.Epsilon with
    | none => ∅
    | some d => d

/-- Nfa::transit_epsilon of regex.rs: union of one-step epsilon destinations
over the given set. -/
def transit_epsilon (nfa : Nfa) (states : Finset ℕ) : Finset ℕ :=
  states.biUnion (epsDest nfa)

/-- All states that occur as the destination of some epsilon transition in the
table; the worklist of `epsilon_next` only ever grows inside this set. -/
def allEpsTargets (nfa : Nfa) : Finset ℕ :=
  nfa.states.foldr (fun p acc => (match alookup p.2 NfaTrans.Epsilon with
    | none => ∅
    | some d => d) ∪ acc) ∅

/-- One while-loop iteration state of Nfa::epsilon_next, run on explicit fuel:
while new ≠ ∅: next_new := transit_epsilon(new); new := next_new \ nexts;
nexts := nexts ∪ next_new. -/
def epsilonLoop (nfa : Nfa) : ℕ → Finset ℕ → Finset ℕ → Finset ℕ
  | 0, nexts, _ => nexts
  | fuel + 1, nexts, new =>
    if new = ∅ then nexts
    else
      let next_new := transit_epsilon nfa new
      epsilonLoop nfa fuel (nexts ∪ next_new) (next_new \ nexts)

/-- Nfa::epsilon_next of regex.rs: worklist fixpoint closing a state set under
epsilon transitions. The fuel passed here is proved sufficient for the loop to
exit on an empty frontier (epsilon_next_spec below). -/
def epsilon_next (nfa : Nfa) (states : Finset ℕ) : Finset ℕ :=
  epsilonLoop nfa ((allEpsTargets nfa).card + 2) states states

/-- Nfa::next of regex.rs: epsilon-close the singleton, then for a literal
label collect its destinations from the closed set and close again. -/
def next (nfa : Nfa) (state : ℕ) (trans : NfaTrans) : Finset ℕ :=
  let e_starts := epsilon_next nfa {state}
  match trans with
  | NfaTrans.Epsilon => e_starts
  | NfaTrans.Char c =>
    let nexts := e_starts.biUnion (fun s =>
      match alookup nfa.states s with
      | none => ∅
      | some tt => match alookup tt (NfaTrans.Char c) with
        | none => ∅
        | some d => d)
    epsilon_next nfa nexts

/-- Nfa::states_next of regex.rs: union of `next` over the current frontier. -/
def states_next (nfa : Nfa) (states : Finset ℕ) (trans : NfaTrans) : Finset ℕ :=
  states.biUnion (fun s => next nfa s trans)

end Nfa

/-- Matching loop of Regex::matches: step the frontier by each character,
short-circuit to false on an empty frontier, and test membership of the accept
state once the input is exhausted. -/
def matchesLoop (nfa : Nfa) : Finset ℕ → List Char → Bool
  | states, [] => nfa.accept ∈ states
  | states, c :: rest =>
    let states' := Nfa.states_next nfa states (NfaTrans.Char c)
    if states' = ∅ then false else matchesLoop nfa states' rest

/-- Regex::matches of regex.rs: the frontier starts as the raw singleton
`{nfa.start}` (no epsilon closure is taken before the loop). -/
def regexMatches (nfa : Nfa) (input : List Char) : Bool :=
  matchesLoop nfa {nfa.start} input

/-- Sample ASTs used by the tests of the repository. -/
def astA : Node := Node.Char 'a'

def astAstarBstar : Node :=
  Node.Concat (Node.Repeat (Node.Char 'a')) (Node.Repeat (Node.Char 'b'))

def astAB : Node := Node.Concat (Node.Char 'a') (Node.Char 'b')

def astRepA : Node := Node.Repeat (Node.Char 'a')

example : regexMatches (Nfa.ofNode astA) ['a'] = true := by decide
example : regexMatches (Nfa.ofNode astA) ['b'] = false := by decide
example : regexMatches (Nfa.ofNode astA) [] = false := by decide
example : regexMatches (Nfa.ofNode astAstarBstar) ['a', 'a', 'b'] = true := by decide
example : regexMatches (Nfa.ofNode astAstarBstar) ['b', 'a'] = false := by decide

/-- Custom Hash impl for NfaStateSet in dfa.rs: multiply the member ids
together on `u32` (wrapping on overflow) and hash the product. Two different
sets with the same product collide (e.g. `{2,6}` and `{3,4}`). -/
def hashNfaStateSet (s : Finset ℕ) : ℕ :=
  (s.prod (fun x => x)) % 2 ^ 32

namespace Nfa

/-- Nfa::transition_map_of, destination part: destinations of char-`c`
transitions out of members of `states` (no epsilon closure is applied, as in
the source). -/
def destsOf (nfa : Nfa) (states : Finset ℕ) (c : Char) : Finset ℕ :=
  states.biUnion (fun s =>
    match alookup nfa.states s with
    | none => ∅
    | some tt => match alookup tt (NfaTrans.Char c) with
      | none => ∅
      | some d => d)

/-- Nfa::transition_map_of of dfa.rs: the per-character successor-set map of a
state set. For every member state with a transition table, every char-labelled
destination set is merged (by set union) into the entry of that character; no
epsilon closure is applied anywhere, as in the source. The source iterates the
member set in unspecified hash order; the embedding walks the state table in
insertion order and filters by membership, which merges exactly the same
(state, char, destinations) triples. The per-state row merge is split out as
`rowMerge` below. -/
def rowMerge (nexts : List (Char × Finset ℕ)) (tt : TransTable) :
    List (Char × Finset ℕ) :=
  tt.foldl (fun nexts2 q =>
    match q.1 with
    | NfaTrans.Epsilon => nexts2
    | NfaTrans.Char c =>
      match alookup nexts2 c with
      | some nxts => ainsert nexts2 c (nxts ∪ q.2)
      | none => ainsert nexts2 c q.2) nexts

def transition_map_of (nfa : Nfa) (states : Finset ℕ) : List (Char × Finset ℕ) :=
  nfa.states.foldl (fun nexts p =>
    if p.1 ∈ states then rowMerge nexts p.2 else nexts) []

end Nfa

/-- One entry of dfa.rs `Env::state_map`: key is the NFA state set, value is
the recorded transition map and the assigned dense DFA state id. -/
abbrev EnvT : Type := List (Finset ℕ × (List (Char × Finset ℕ) × ℕ))

/-- Env::insert of dfa.rs: merge the transition map into an existing entry
(keeping its id), or append a fresh entry whose id is the current size. -/
def envInsert (env : EnvT) (nstat : Finset ℕ) (transs : List (Char × Finset ℕ)) : EnvT :=
  match alookup env nstat with
  | some _ => env.map (fun e => if e.1 = nstat then (e.1, (aextend e.2.1 transs, e.2.2)) else e)
  | none => env ++ [(nstat, (transs, env.length))]

/-- Inner for-loop of the subset-construction worklist in `Dfa::from`: process
every pending state set in order, inserting its transition map into the env
and collecting all destination sets. -/
def processNew (nfa : Nfa) (env : EnvT) : List (Finset ℕ) → EnvT × List (Finset ℕ)
  | [] => (env, [])
  | ns :: rest =>
    let trans_map := Nfa.transition_map_of nfa ns
    let r := processNew nfa (envInsert env ns trans_map) rest
    (r.1, trans_map.map Prod.snd ++ r.2)

/-- Worklist loop of `Dfa::from`, on explicit fuel: while new ≠ ∅, process the
pending sets, then new := discovered \ nstats and nstats := nstats ∪ new. -/
def dfaLoop (nfa : Nfa) : ℕ → EnvT → Finset (Finset ℕ) → List (Finset ℕ) → EnvT
  | 0, env, _, _ => env
  | fuel + 1, env, nstats, new =>
    if new = [] then env
    else
      let r := processNew nfa env new
      let new' := r.2.dedup.filter (fun s => s ∉ nstats)
      dfaLoop nfa fuel r.1 (nstats ∪ new'.toFinset) new'

/-- Char-labelled destinations of one transition table, merged into `acc`. -/
def charRow (tt : TransTable) (acc : Finset ℕ) : Finset ℕ :=
  tt.foldr (fun q acc2 =>
    match q.1 with
    | NfaTrans.Epsilon => acc2
    | NfaTrans.Char _ => q.2 ∪ acc2) acc

/-- All states occurring as the destination of a char transition anywhere in
the NFA table. -/
def allCharTargets (nfa : Nfa) : Finset ℕ :=
  nfa.states.foldr (fun p acc => charRow p.2 acc) ∅

/-- Char-transition targets plus the seed closure: every state set the subset
construction ever touches is a subset of this universe, which bounds the
worklist loop. -/
def dfaUniverse (nfa : Nfa) : Finset ℕ :=
  allCharTargets nfa ∪ Nfa.next nfa nfa.start NfaTrans.Epsilon

/-- The completed `Env::state_map` of `Dfa::from`: seed with the epsilon
closure of the start state and run the worklist to exhaustion. The fuel is
proved sufficient for the loop to exit on an empty worklist. -/
def dfaEnv (nfa : Nfa) : EnvT :=
  let start := Nfa.next nfa nfa.start NfaTrans.Epsilon
  dfaLoop nfa (2 ^ (dfaUniverse nfa).card + 2) [] {start} [start]

/-- The DFA of dfa.rs: dense start id, transition table, accept id set. -/
structure Dfa : Type where
  start : ℕ
  states : List (ℕ × List (Char × ℕ))
  accepts : Finset ℕ
deriving DecidableEq

/-- Env::into_dfa_states of dfa.rs: re-key every recorded transition map by
dense DFA ids, looking each destination set up in the state map (`unwrap`
modelled as a default of 0; C10 proves the lookup is never missing). -/
def intoDfaStates (env : EnvT) : List (ℕ × List (Char × ℕ)) :=
  env.map (fun e =>
    (e.2.2, e.2.1.map (fun cd => (cd.1, ((alookup env cd.2).map Prod.snd).getD 0))))

/-- From<Nfa> for Dfa: run the subset construction and package the result.
The accept set is left empty, exactly as in the source (`accepts:
HashSet::new()`). -/
def dfaFrom (nfa : Nfa) : Dfa :=
  let start := Nfa.next nfa nfa.start NfaTrans.Epsilon
  let env := dfaEnv nfa
  { start := ((alookup env start).map Prod.snd).getD 0
    states := intoDfaStates env
    accepts := ∅ }

/-- Modelled from the spec: `matches_dfa` (§4.4) is specified but not
implemented in the source (`DFA matcher` is listed as "not-yet-implemented in
source, but specified"). Start at `dfa.start`; for each character follow the
recorded transition if present, otherwise fail immediately; after the input is
exhausted, succeed iff the current state is in the accept set. -/
def matchesDfa (dfa : Dfa) (input : List Char) : Bool :=
  go dfa.start input
where
  go : ℕ → List Char → Bool
    | state, [] => state ∈ dfa.accepts
    | state, c :: rest =>
      match alookup dfa.states state with
      | none => false
      | some tt =>
        match alookup tt c with
        | none => false
        | some s' => go s' rest

example : (dfaFrom (Nfa.ofNode astA)).accepts = ∅ := by decide
example : matchesDfa (dfaFrom (Nfa.ofNode astA)) ['a'] = false := by decide
example : regexMatches (Nfa.ofNode astA) ['a'] = true := by decide

namespace Nfa

theorem epsilonLoop_nil (nfa : Nfa) (fuel : ℕ) (nexts : Finset ℕ) :
    epsilonLoop nfa fuel nexts ∅ = nexts := by
  cases fuel <;> simp [epsilonLoop]

theorem epsDest_subset_allEpsTargets (nfa : Nfa) (s : ℕ) :
    epsDest nfa s ⊆ allEpsTargets nfa := by
  unfold epsDest
  cases hs : alookup nfa.states s with
  | none => simp
  | some tt =>
    have hmem : (s, tt) ∈ nfa.states := alookup_mem _ _ _ hs
    unfold allEpsTargets
    generalize nfa.states = l at hmem
    induction l with
    | nil => simp at hmem
    | cons hd t ih =>
      rcases List.mem_cons.mp hmem with h1 | h2
      · subst h1
        simp only [List.foldr_cons]
        exact Finset.subset_union_left
      · exact (ih h2).trans (by simp only [List.foldr_cons]; exact Finset.subset_union_right)

theorem transit_epsilon_subset_allEpsTargets (nfa : Nfa) (S : Finset ℕ) :
    transit_epsilon nfa S ⊆ allEpsTargets nfa := by
  unfold transit_epsilon
  rw [Finset.biUnion_subset]
  exact fun x _ => epsDest_subset_allEpsTargets nfa x

theorem transit_epsilon_mono (nfa : Nfa) {S T : Finset ℕ} (h : S ⊆ T) :
    transit_epsilon nfa S ⊆ transit_epsilon nfa T :=
  Finset.biUnion_subset_biUnion_of_subset_left _ h

/-- Loop invariant of epsilon_next: starting from a frontier contained in the
accumulator whose already-processed part is one-step closed, and with enough
fuel, the loop returns a superset of the accumulator that is closed under one
epsilon step (hence the loop reached its empty-frontier exit). -/
theorem epsilonLoop_post (nfa : Nfa) :
    ∀ fuel nexts new, new ⊆ nexts →
      transit_epsilon nfa (nexts \ new) ⊆ nexts →
      (allEpsTargets nfa \ nexts).card + 2 ≤ fuel →
      nexts ⊆ epsilonLoop nfa fuel nexts new ∧
        transit_epsilon nfa (epsilonLoop nfa fuel nexts new) ⊆
          epsilonLoop nfa fuel nexts new := by
  intro fuel
  induction fuel with
  | zero => intro nexts new _ _ hfuel; omega
  | succ f ih =>
    intro nexts new h1 h2 hfuel
    by_cases hnew : new = ∅
    · subst hnew
      rw [epsilonLoop_nil]
      refine ⟨Finset.Subset.refl _, ?_⟩
      simpa using h2
    · have hstep : epsilonLoop nfa (f + 1) nexts new =
        epsilonLoop nfa f (nexts ∪ transit_epsilon nfa new)
          (transit_epsilon nfa new \ nexts) := by
        simp [epsilonLoop, hnew]
      have hclosed : transit_epsilon nfa nexts ⊆ nexts ∪ transit_epsilon nfa new := by
        rw [transit_epsilon, Finset.biUnion_subset]
        intro x hx
        by_cases hxn : x ∈ new
        · exact (Finset.subset_biUnion_of_mem _ hxn).trans Finset.subset_union_right
        · have : epsDest nfa x ⊆ nexts := by
            refine Finset.Subset.trans ?_ h2
            exact Finset.subset_biUnion_of_mem _ (Finset.mem_sdiff.mpr ⟨hx, hxn⟩)
          exact this.trans Finset.subset_union_left
      by_cases hnn : transit_epsilon nfa new \ nexts = ∅
      · have hsub : transit_epsilon nfa new ⊆ nexts := by
          intro x hx
          by_contra hxn
          exact absurd (Finset.mem_sdiff.mpr ⟨hx, hxn⟩) (by simp [hnn])
        have hunion : nexts ∪ transit_epsilon nfa new = nexts := Finset.union_eq_left.mpr hsub
        rw [hstep, hnn, epsilonLoop_nil, hunion]
        refine ⟨Finset.Subset.refl _, ?_⟩
        exact hclosed.trans (by rw [hunion])
      · obtain ⟨x, hx⟩ := Finset.nonempty_iff_ne_empty.mpr hnn
        have hxall : x ∈ allEpsTargets nfa :=
          transit_epsilon_subset_allEpsTargets nfa new (Finset.mem_sdiff.mp hx).1
        have hxnot : x ∉ nexts := (Finset.mem_sdiff.mp hx).2
        have hss : allEpsTargets nfa \ (nexts ∪ transit_epsilon nfa new) ⊂
            allEpsTargets nfa \ nexts := by
          refine Finset.ssubset_iff_of_subset ?_ |>.mpr ?_
          · exact Finset.sdiff_subset_sdiff (Finset.Subset.refl _) Finset.subset_union_left
          · refine ⟨x, Finset.mem_sdiff.mpr ⟨hxall, hxnot⟩, ?_⟩
            simp only [Finset.mem_sdiff, not_and, not_not]
            intro _
            exact Finset.mem_union_right _ (Finset.mem_sdiff.mp hx).1
        have hcard : (allEpsTargets nfa \ (nexts ∪ transit_epsilon nfa new)).card <
            (allEpsTargets nfa \ nexts).card := Finset.card_lt_card hss
        have hres := ih (nexts ∪ transit_epsilon nfa new) (transit_epsilon nfa new \ nexts)
          (by
            intro y hy
            exact Finset.mem_union_right _ (Finset.mem_sdiff.mp hy).1)
          (by
            have hdiff : (nexts ∪ transit_epsilon nfa new) \
                (transit_epsilon nfa new \ nexts) = nexts := by
              ext y
              simp only [Finset.mem_sdiff, Finset.mem_union]
              tauto
            rw [hdiff]
            exact hclosed)
          (by omega)
        rw [hstep]
        exact ⟨(Finset.subset_union_left).trans hres.1, hres.2⟩

/-- The loop result stays inside any one-step-closed superset of the
accumulator and the frontier. -/
theorem epsilonLoop_subset_of_closed (nfa : Nfa) (P : Finset ℕ)
    (hP : transit_epsilon nfa P ⊆ P) :
    ∀ fuel nexts new, nexts ⊆ P → new ⊆ P → epsilonLoop nfa fuel nexts new ⊆ P := by
  intro fuel
  induction fuel with
  | zero => intro nexts new h1 _; exact h1
  | succ f ih =>
    intro nexts new h1 h2
    by_cases hnew : new = ∅
    · subst hnew; rw [epsilonLoop_nil]; exact h1
    · show epsilonLoop nfa _ nexts new ⊆ P
      have : epsilonLoop nfa (f + 1) nexts new =
          epsilonLoop nfa f (nexts ∪ transit_epsilon nfa new)
            (transit_epsilon nfa new \ nexts) := by
        simp [epsilonLoop, hnew]
      rw [this]
      have hnn : transit_epsilon nfa new ⊆ P := (transit_epsilon_mono nfa h2).trans hP
      exact ih _ _ (Finset.union_subset h1 hnn) (Finset.Subset.trans (Finset.sdiff_subset) hnn)

/-- Specification of Nfa::epsilon_next: it returns the least superset of its
argument closed under one epsilon step. -/
theorem epsilon_next_spec (nfa : Nfa) (S : Finset ℕ) :
    S ⊆ epsilon_next nfa S ∧
      transit_epsilon nfa (epsilon_next nfa S) ⊆ epsilon_next nfa S ∧
      ∀ P, S ⊆ P → transit_epsilon nfa P ⊆ P → epsilon_next nfa S ⊆ P := by
  have hpost := epsilonLoop_post nfa ((allEpsTargets nfa).card + 2) S S
    (Finset.Subset.refl S)
    (by simp [transit_epsilon])
    (by
      have : (allEpsTargets nfa \ S).card ≤ (allEpsTargets nfa).card :=
        Finset.card_le_card (Finset.sdiff_subset)
      omega)
  refine ⟨hpost.1, hpost.2, ?_⟩
  intro P hSP hPc
  exact epsilonLoop_subset_of_closed nfa P hPc _ S S hSP hSP

end Nfa

theorem alookup_aextend_eq_none {α β : Type} [DecidableEq α] (m o : List (α × β)) (x : α)
    (hm : alookup m x = none) (ho : alookup o x = none) :
    alookup (aextend m o) x = none := by
  induction o generalizing m with
  | nil => exact hm
  | cons hd t ih =>
    obtain ⟨k, v⟩ := hd
    have hx : x ≠ k := by
      intro h
      subst h
      simp [alookup] at ho
    simp only [alookup, if_neg hx] at ho
    simp only [aextend, List.foldl_cons]
    exact ih (ainsert m k v) (by rw [alookup_ainsert]; simp [hx, hm]) ho

namespace Nfa


/-- Unfolding equation for the literal case of the builder. -/
theorem new_char_eq (ch : Char) (c : ℕ) :
    new (Node.Char ch) c =
      ({ start := c + 1,
         states := ainsert [] (c + 1) (ainsert [] (NfaTrans.Char ch) {c + 2}),
         accept := c + 2 }, c + 2) := rfl

/-- Unfolding equation for the concatenation case of the builder. -/
theorem new_concat_eq (n1 n2 : Node) (c : ℕ) :
    new (Node.Concat n1 n2) c =
      ({ start := c + 1,
         states := aextend (aextend (ainsert (ainsert (ainsert []
             (c + 1) (ainsert [] NfaTrans.Epsilon {(new n1 (c + 2)).1.start}))
             (new n1 (c + 2)).1.accept
             (ainsert [] NfaTrans.Epsilon {(new n2 (new n1 (c + 2)).2).1.start}))
             (new n2 (new n1 (c + 2)).2).1.accept
             (ainsert [] NfaTrans.Epsilon {c + 2}))
           (new n1 (c + 2)).1.states)
           (new n2 (new n1 (c + 2)).2).1.states,
         accept := c + 2 }, (new n2 (new n1 (c + 2)).2).2) := rfl

/-- Unfolding equation for the alternation case of the builder. -/
theorem new_or_eq (n1 n2 : Node) (c : ℕ) :
    new (Node.Or n1 n2) c =
      ({ start := c + 1,
         states := aextend (aextend (ainsert (ainsert (ainsert []
             (c + 1) (ainsert [] NfaTrans.Epsilon
               {(new n1 (c + 2)).1.start, (new n2 (new n1 (c + 2)).2).1.start}))
             (new n1 (c + 2)).1.accept
             (ainsert [] NfaTrans.Epsilon {c + 2}))
             (new n2 (new n1 (c + 2)).2).1.accept
             (ainsert [] NfaTrans.Epsilon {c + 2}))
           (new n1 (c + 2)).1.states)
           (new n2 (new n1 (c + 2)).2).1.states,
         accept := c + 2 }, (new n2 (new n1 (c + 2)).2).2) := rfl

/-- Unfolding equation for the repeat case of the builder. -/
theorem new_repeat_eq (n1 : Node) (c : ℕ) :
    new (Node.Repeat n1) c =
      ({ start := c + 1,
         states := aextend (ainsert (ainsert []
             (c + 1) (ainsert [] NfaTrans.Epsilon {c + 2, (new n1 (c + 2)).1.start}))
             (new n1 (c + 2)).1.accept
             (ainsert [] NfaTrans.Epsilon {c + 1, c + 2}))
           (new n1 (c + 2)).1.states,
         accept := c + 2 }, (new n1 (c + 2)).2) := rfl


/-- Every builder case allocates the fragment start first: `start = c + 1`. -/
theorem new_start (n : Node) (c : ℕ) : (new n c).1.start = c + 1 := by
  cases n <;> rfl

/-- Every builder case allocates the fragment accept second: `accept = c + 2`. -/
theorem new_accept (n : Node) (c : ℕ) : (new n c).1.accept = c + 2 := by
  cases n <;> rfl

theorem new_count_char (ch : Char) (c : ℕ) : (new (Node.Char ch) c).2 = c + 2 := rfl

theorem new_count_concat (n1 n2 : Node) (c : ℕ) :
    (new (Node.Concat n1 n2) c).2 = (new n2 (new n1 (c + 2)).2).2 := rfl

theorem new_count_or (n1 n2 : Node) (c : ℕ) :
    (new (Node.Or n1 n2) c).2 = (new n2 (new n1 (c + 2)).2).2 := rfl

theorem new_count_repeat (n1 : Node) (c : ℕ) :
    (new (Node.Repeat n1) c).2 = (new n1 (c + 2)).2 := rfl

theorem new_states_char (ch : Char) (c : ℕ) :
    (new (Node.Char ch) c).1.states =
      ainsert [] (c + 1) (ainsert [] (NfaTrans.Char ch) {c + 2}) := rfl

theorem new_states_concat (n1 n2 : Node) (c : ℕ) :
    (new (Node.Concat n1 n2) c).1.states =
      aextend (aextend (ainsert (ainsert (ainsert []
          (c + 1) (ainsert [] NfaTrans.Epsilon {(new n1 (c + 2)).1.start}))
          (new n1 (c + 2)).1.accept
          (ainsert [] NfaTrans.Epsilon {(new n2 (new n1 (c + 2)).2).1.start}))
          (new n2 (new n1 (c + 2)).2).1.accept
          (ainsert [] NfaTrans.Epsilon {c + 2}))
        (new n1 (c + 2)).1.states)
        (new n2 (new n1 (c + 2)).2).1.states := rfl

theorem new_states_or (n1 n2 : Node) (c : ℕ) :
    (new (Node.Or n1 n2) c).1.states =
      aextend (aextend (ainsert (ainsert (ainsert []
          (c + 1) (ainsert [] NfaTrans.Epsilon
            {(new n1 (c + 2)).1.start, (new n2 (new n1 (c + 2)).2).1.start}))
          (new n1 (c + 2)).1.accept
          (ainsert [] NfaTrans.Epsilon {c + 2}))
          (new n2 (new n1 (c + 2)).2).1.accept
          (ainsert [] NfaTrans.Epsilon {c + 2}))
        (new n1 (c + 2)).1.states)
        (new n2 (new n1 (c + 2)).2).1.states := rfl

theorem new_states_repeat (n1 : Node) (c : ℕ) :
    (new (Node.Repeat n1) c).1.states =
      aextend (ainsert (ainsert []
          (c + 1) (ainsert [] NfaTrans.Epsilon {c + 2, (new n1 (c + 2)).1.start}))
          (new n1 (c + 2)).1.accept
          (ainsert [] NfaTrans.Epsilon {c + 1, c + 2}))
        (new n1 (c + 2)).1.states := rfl

/-- Allocation invariant of the Thompson builder: compiling from counter `c`
strictly advances the counter, keeps every key of the fragment's state table
inside the interval `(c, c']` of ids allocated during this call, gives the
accept state no outgoing transitions, and never duplicates a key. -/
theorem new_inv : ∀ (n : Node) (c : ℕ),
    c + 2 ≤ (new n c).2 ∧
    (∀ k, (alookup (new n c).1.states k).isSome → c < k ∧ k ≤ (new n c).2) ∧
    alookup (new n c).1.states (new n c).1.accept = none ∧
    (akeys (new n c).1.states).Nodup := by
  intro n
  induction n with
  | Char ch =>
    intro c
    rw [new_count_char, new_states_char, new_accept (Node.Char ch) c]
    refine ⟨le_refl _, ?_, ?_, ?_⟩
    · intro k hk
      rw [alookup_ainsert] at hk
      by_cases h : k = c + 1
      · omega
      · simp [alookup, if_neg h] at hk
    · have h : (c : ℕ) + 2 ≠ c + 1 := by omega
      rw [alookup_ainsert, if_neg h]
      rfl
    · simp [ainsert, akeys]
  | Concat n1 n2 ih1 ih2 =>
    intro c
    obtain ⟨ha1, hdom1, hnone1, hnodup1⟩ := ih1 (c + 2)
    obtain ⟨ha2, hdom2, hnone2, hnodup2⟩ := ih2 (new n1 (c + 2)).2
    have hacc1 := new_accept n1 (c + 2)
    have hacc2 := new_accept n2 (new n1 (c + 2)).2
    rw [new_count_concat, new_states_concat, new_accept (Node.Concat n1 n2) c]
    refine ⟨by omega, ?_, ?_, ?_⟩
    · intro k hk
      rcases alookup_aextend_isSome _ _ _ hk with hk' | hk2
      · rcases alookup_aextend_isSome _ _ _ hk' with hkb | hk1
        · rw [alookup_ainsert] at hkb
          by_cases h2 : k = (new n2 (new n1 (c + 2)).2).1.accept
          · rw [hacc2] at h2
            omega
          · rw [if_neg h2, alookup_ainsert] at hkb
            by_cases h1 : k = (new n1 (c + 2)).1.accept
            · rw [hacc1] at h1
              omega
            · rw [if_neg h1, alookup_ainsert] at hkb
              by_cases h0 : k = c + 1
              · omega
              · simp [alookup, if_neg h0] at hkb
        · have := hdom1 k hk1
          omega
      · have := hdom2 k hk2
        omega
    · apply alookup_aextend_eq_none
      · apply alookup_aextend_eq_none
        · have h2 : (c : ℕ) + 2 ≠ (new n2 (new n1 (c + 2)).2).1.accept := by
            rw [hacc2]; omega
          have h1 : (c : ℕ) + 2 ≠ (new n1 (c + 2)).1.accept := by
            rw [hacc1]; omega
          have h0 : (c : ℕ) + 2 ≠ c + 1 := by omega
          rw [alookup_ainsert, if_neg h2, alookup_ainsert, if_neg h1,
            alookup_ainsert, if_neg h0]
          rfl
        · cases h : alookup (new n1 (c + 2)).1.states (c + 2) with
          | none => rfl
          | some v =>
            have := hdom1 (c + 2) (by rw [h]; rfl)
            omega
      · cases h : alookup (new n2 (new n1 (c + 2)).2).1.states (c + 2) with
        | none => rfl
        | some v =>
          have := hdom2 (c + 2) (by rw [h]; rfl)
          omega
    · apply akeys_aextend_nodup
      apply akeys_aextend_nodup
      apply akeys_ainsert_nodup
      apply akeys_ainsert_nodup
      apply akeys_ainsert_nodup
      simp [akeys]
  | Or n1 n2 ih1 ih2 =>
    intro c
    obtain ⟨ha1, hdom1, hnone1, hnodup1⟩ := ih1 (c + 2)
    obtain ⟨ha2, hdom2, hnone2, hnodup2⟩ := ih2 (new n1 (c + 2)).2
    have hacc1 := new_accept n1 (c + 2)
    have hacc2 := new_accept n2 (new n1 (c + 2)).2
    rw [new_count_or, new_states_or, new_accept (Node.Or n1 n2) c]
    refine ⟨by omega, ?_, ?_, ?_⟩
    · intro k hk
      rcases alookup_aextend_isSome _ _ _ hk with hk' | hk2
      · rcases alookup_aextend_isSome _ _ _ hk' with hkb | hk1
        · rw [alookup_ainsert] at hkb
          by_cases h2 : k = (new n2 (new n1 (c + 2)).2).1.accept
          · rw [hacc2] at h2
            omega
          · rw [if_neg h2, alookup_ainsert] at hkb
            by_cases h1 : k = (new n1 (c + 2)).1.accept
            · rw [hacc1] at h1
              omega
            · rw [if_neg h1, alookup_ainsert] at hkb
              by_cases h0 : k = c + 1
              · omega
              · simp [alookup, if_neg h0] at hkb
        · have := hdom1 k hk1
          omega
      · have := hdom2 k hk2
        omega
    · apply alookup_aextend_eq_none
      · apply alookup_aextend_eq_none
        · have h2 : (c : ℕ) + 2 ≠ (new n2 (new n1 (c + 2)).2).1.accept := by
            rw [hacc2]; omega
          have h1 : (c : ℕ) + 2 ≠ (new n1 (c + 2)).1.accept := by
            rw [hacc1]; omega
          have h0 : (c : ℕ) + 2 ≠ c + 1 := by omega
          rw [alookup_ainsert, if_neg h2, alookup_ainsert, if_neg h1,
            alookup_ainsert, if_neg h0]
          rfl
        · cases h : alookup (new n1 (c + 2)).1.states (c + 2) with
          | none => rfl
          | some v =>
            have := hdom1 (c + 2) (by rw [h]; rfl)
            omega
      · cases h : alookup (new n2 (new n1 (c + 2)).2).1.states (c + 2) with
        | none => rfl
        | some v =>
          have := hdom2 (c + 2) (by rw [h]; rfl)
          omega
    · apply akeys_aextend_nodup
      apply akeys_aextend_nodup
      apply akeys_ainsert_nodup
      apply akeys_ainsert_nodup
      apply akeys_ainsert_nodup
      simp [akeys]
  | Repeat n1 ih1 =>
    intro c
    obtain ⟨ha1, hdom1, hnone1, hnodup1⟩ := ih1 (c + 2)
    have hacc1 := new_accept n1 (c + 2)
    rw [new_count_repeat, new_states_repeat, new_accept (Node.Repeat n1) c]
    refine ⟨by omega, ?_, ?_, ?_⟩
    · intro k hk
      rcases alookup_aextend_isSome _ _ _ hk with hk' | hk1
      · rw [alookup_ainsert] at hk'
        by_cases h1 : k = (new n1 (c + 2)).1.accept
        · rw [hacc1] at h1
          omega
        · rw [if_neg h1, alookup_ainsert] at hk'
          by_cases h0 : k = c + 1
          · omega
          · simp [alookup, if_neg h0] at hk'
      · have := hdom1 k hk1
        omega
    · apply alookup_aextend_eq_none
      · have h1 : (c : ℕ) + 2 ≠ (new n1 (c + 2)).1.accept := by
          rw [hacc1]; omega
        have h0 : (c : ℕ) + 2 ≠ c + 1 := by omega
        rw [alookup_ainsert, if_neg h1, alookup_ainsert, if_neg h0]
        rfl
      · cases h : alookup (new n1 (c + 2)).1.states (c + 2) with
        | none => rfl
        | some v =>
          have := hdom1 (c + 2) (by rw [h]; rfl)
          omega
    · apply akeys_aextend_nodup
      apply akeys_ainsert_nodup
      apply akeys_ainsert_nodup
      simp [akeys]

end Nfa

/-- NFA for pattern a. -/
def nfaA : Nfa := Nfa.ofNode astA

/-- NFA for pattern ab. -/
def nfaAB : Nfa := Nfa.ofNode astAB

/-- NFA for pattern a*b*. -/
def nfaAstarBstar : Nfa := Nfa.ofNode astAstarBstar

/-- NFA for pattern a*. -/
def nfaRepA : Nfa := Nfa.ofNode astRepA

/-- NFA for pattern b. -/
def nfaB : Nfa := Nfa.ofNode (Node.Char 'b')

/-- AST for pattern a*b (concatenation of a* and b). -/
def astRepAB : Node := Node.Concat astRepA (Node.Char 'b')

/-- NFA for pattern a*b. -/
def nfaRepAB : Nfa := Nfa.ofNode astRepAB

/-- C7: for every NFA, `epsilon_next` is idempotent, and it is monotonic:
`S ⊆ T` implies `epsilon_next S ⊆ epsilon_next T`. -/
theorem C7_epsilon_next_idempotent_monotone (nfa : Nfa) (S T : Finset ℕ) :
    nfa.epsilon_next (nfa.epsilon_next S) = nfa.epsilon_next S ∧
      (S ⊆ T → nfa.epsilon_next S ⊆ nfa.epsilon_next T) := by
  obtain ⟨hS1, hS2, hS3⟩ := Nfa.epsilon_next_spec nfa S
  constructor
  · apply Finset.Subset.antisymm
    · exact (Nfa.epsilon_next_spec nfa (nfa.epsilon_next S)).2.2
        (nfa.epsilon_next S) (Finset.Subset.refl _) hS2
    · exact (Nfa.epsilon_next_spec nfa (nfa.epsilon_next S)).1
  · intro hST
    obtain ⟨hT1, hT2, hT3⟩ := Nfa.epsilon_next_spec nfa T
    exact hS3 _ (hST.trans hT1) hT2

/-- Witness for C7 at the NFA of a* with S = {1} ⊆ T = {1, 4}. -/
theorem C7_witness :
    nfaRepA.epsilon_next (nfaRepA.epsilon_next {1}) = nfaRepA.epsilon_next {1} ∧
      (({1} : Finset ℕ) ⊆ {1, 4}) ∧
      nfaRepA.epsilon_next {1} ⊆ nfaRepA.epsilon_next {1, 4} :=
  ⟨(C7_epsilon_next_idempotent_monotone nfaRepA {1} {1, 4}).1, by decide,
    (C7_epsilon_next_idempotent_monotone nfaRepA {1} {1, 4}).2 (by decide)⟩

/-- C9: state ids come from one strictly increasing counter, so two fragments
built in sequence during one compilation have disjoint state-table key sets,
and merging the tables with extend preserves every binding of the first
fragment. -/
theorem C9_fragment_ids_disjoint (n1 n2 : Node) (c : ℕ) :
    (c < (Nfa.new n1 c).2 ∧ (Nfa.new n1 c).2 < (Nfa.new n2 (Nfa.new n1 c).2).2) ∧
    (∀ k, (alookup (Nfa.new n1 c).1.states k).isSome →
      alookup (Nfa.new n2 (Nfa.new n1 c).2).1.states k = none) ∧
    (∀ k, (alookup (Nfa.new n1 c).1.states k).isSome →
      alookup (aextend (Nfa.new n1 c).1.states (Nfa.new n2 (Nfa.new n1 c).2).1.states) k =
        alookup (Nfa.new n1 c).1.states k) := by
  obtain ⟨ha1, hdom1, hnone1, hnodup1⟩ := Nfa.new_inv n1 c
  obtain ⟨ha2, hdom2, hnone2, hnodup2⟩ := Nfa.new_inv n2 (Nfa.new n1 c).2
  have hdisj : ∀ k, (alookup (Nfa.new n1 c).1.states k).isSome →
      alookup (Nfa.new n2 (Nfa.new n1 c).2).1.states k = none := by
    intro k hk
    have h1 := hdom1 k hk
    cases h : alookup (Nfa.new n2 (Nfa.new n1 c).2).1.states k with
    | none => rfl
    | some v =>
      have h2 := hdom2 k (by rw [h]; rfl)
      omega
  refine ⟨⟨by omega, by omega⟩, hdisj, ?_⟩
  intro k hk
  rw [alookup_aextend _ _ _ hnodup2, hdisj k hk]

/-- Witness for C9 at n1 = Char a, n2 = Char b, c = 0, k = 1. -/
theorem C9_witness :
    (alookup (Nfa.new astA 0).1.states 1).isSome = true ∧
      alookup (Nfa.new (Node.Char 'b') (Nfa.new astA 0).2).1.states 1 = none ∧
      alookup (aextend (Nfa.new astA 0).1.states
        (Nfa.new (Node.Char 'b') (Nfa.new astA 0).2).1.states) 1 =
        alookup (Nfa.new astA 0).1.states 1 ∧
      0 < (Nfa.new astA 0).2 :=
  ⟨by decide, (C9_fragment_ids_disjoint astA (Node.Char 'b') 0).2.1 1 (by decide),
    (C9_fragment_ids_disjoint astA (Node.Char 'b') 0).2.2 1 (by decide),
    (C9_fragment_ids_disjoint astA (Node.Char 'b') 0).1.1⟩

/-- C5 counterexample: in the fragment built for Repeat(Char a) (new start
S = 1, new accept A = 2, inner start Fs = 3, inner accept Fa = 4), the epsilon
destinations of Fa are {1, 2} = {S, A}: there is no loop-back edge
Fa --eps--> Fs as the claim states; the loop-back edge goes to S. -/
theorem C5_counterexample :
    Nfa.epsDest nfaRepA 4 = {1, 2} ∧
      3 ∉ Nfa.epsDest nfaRepA 4 ∧
      nfaRepA.start = 1 ∧ nfaRepA.accept = 2 ∧
      (Nfa.new (Node.Char 'a') 2).1.start = 3 ∧
      (Nfa.new (Node.Char 'a') 2).1.accept = 4 := by decide

/-- C5 (amended): for every Repeat(inner) fragment, the construction adds
exactly the epsilon edges S --eps--> A, S --eps--> Fs, Fa --eps--> S and
Fa --eps--> A: the new start's transition table is exactly the epsilon row
{A, Fs}, the inner accept's table is exactly the epsilon row {S, A}, and
every other state keeps exactly its inner-fragment transition table. -/
theorem C5_repeat_edges (inner : Node) (c : ℕ) :
    alookup (Nfa.new (Node.Repeat inner) c).1.states
        (Nfa.new (Node.Repeat inner) c).1.start =
      some (ainsert [] NfaTrans.Epsilon
        {(Nfa.new (Node.Repeat inner) c).1.accept, (Nfa.new inner (c + 2)).1.start}) ∧
    alookup (Nfa.new (Node.Repeat inner) c).1.states
        (Nfa.new inner (c + 2)).1.accept =
      some (ainsert [] NfaTrans.Epsilon
        {(Nfa.new (Node.Repeat inner) c).1.start, (Nfa.new (Node.Repeat inner) c).1.accept}) ∧
    ∀ k, k ≠ (Nfa.new (Node.Repeat inner) c).1.start →
      k ≠ (Nfa.new inner (c + 2)).1.accept →
      alookup (Nfa.new (Node.Repeat inner) c).1.states k =
        alookup (Nfa.new inner (c + 2)).1.states k := by
  obtain ⟨ha1, hdom1, hnone1, hnodup1⟩ := Nfa.new_inv inner (c + 2)
  have hacc1 := Nfa.new_accept inner (c + 2)
  rw [Nfa.new_states_repeat, Nfa.new_start (Node.Repeat inner) c,
    Nfa.new_accept (Node.Repeat inner) c]
  refine ⟨?_, ?_, ?_⟩
  · rw [alookup_aextend _ _ _ hnodup1]
    have hF : alookup (Nfa.new inner (c + 2)).1.states (c + 1) = none := by
      cases h : alookup (Nfa.new inner (c + 2)).1.states (c + 1) with
      | none => rfl
      | some v =>
        have := hdom1 (c + 1) (by rw [h]; rfl)
        omega
    rw [hF]
    have h1 : (c : ℕ) + 1 ≠ (Nfa.new inner (c + 2)).1.accept := by rw [hacc1]; omega
    rw [alookup_ainsert, if_neg h1, alookup_ainsert, if_pos rfl]
  · rw [alookup_aextend _ _ _ hnodup1, hnone1, alookup_ainsert, if_pos rfl]
  · intro k hk1 hk2
    rw [alookup_aextend _ _ _ hnodup1]
    cases h : alookup (Nfa.new inner (c + 2)).1.states k with
    | some v => rfl
    | none =>
      rw [alookup_ainsert, if_neg hk2, alookup_ainsert, if_neg hk1]
      rfl

/-- Witness for C5 at inner = Char a, c = 0, k = 3. -/
theorem C5_repeat_edges_witness :
    ((3 : ℕ) ≠ (Nfa.new (Node.Repeat (Node.Char 'a')) 0).1.start) ∧
      ((3 : ℕ) ≠ (Nfa.new (Node.Char 'a') 2).1.accept) ∧
      alookup (Nfa.new (Node.Repeat (Node.Char 'a')) 0).1.states 3 =
        alookup (Nfa.new (Node.Char 'a') 2).1.states 3 :=
  ⟨by decide, by decide,
    (C5_repeat_edges (Node.Char 'a') 0).2.2 3 (by decide) (by decide)⟩

/-- C3: Regex::matches seeds the frontier with the raw singleton {start}, not
its epsilon closure, so on the empty input it returns false for a*b* even
though the accept state is in the closure of {start} (the repository's own
test regex_works2 asserts the empty string matches). -/
theorem C3_empty_input_bug :
    regexMatches nfaAstarBstar [] = false ∧
      nfaAstarBstar.accept ∈ nfaAstarBstar.epsilon_next {nfaAstarBstar.start} := by decide

/-- C6: the concatenation law fails for the code's matcher: the NFA of a*b
matches "b", yet no split of "b" has a* matching the prefix and b matching
the suffix, because the matcher (missing the initial closure) rejects the
empty string for a*. -/
theorem C6_concat_law_bug :
    regexMatches nfaRepAB ['b'] = true ∧
      ∀ s1 s2 : List Char, s1 ++ s2 = ['b'] →
        ¬(regexMatches nfaRepA s1 = true ∧ regexMatches nfaB s2 = true) := by
  refine ⟨by decide, ?_⟩
  intro s1 s2 h
  rcases s1 with _ | ⟨c, s1'⟩
  · simp only [List.nil_append] at h
    subst h
    rintro ⟨h1, h2⟩
    exact absurd h1 (by decide)
  · simp only [List.cons_append, List.cons.injEq] at h
    obtain ⟨hc, hrest⟩ := h
    subst hc
    rcases List.append_eq_nil.mp hrest with ⟨h1', h2'⟩
    subst h1'
    subst h2'
    rintro ⟨h1, h2⟩
    exact absurd h1 (by decide)

/-- Witness for C6 at the split "" ++ "b". -/
theorem C6_witness :
    (([] : List Char) ++ ['b'] = ['b']) ∧
      ¬(regexMatches nfaRepA [] = true ∧ regexMatches nfaB ['b'] = true) :=
  ⟨rfl, C6_concat_law_bug.2 [] ['b'] rfl⟩

/-- C1: Dfa::from returns an empty accept set although the subset construction
for the NFA of pattern a discovers the state set {2}, which contains the NFA
accept state 2 and therefore should be an accepting DFA state. -/
theorem C1_accepts_empty_bug :
    (dfaFrom nfaA).accepts = ∅ ∧
      alookup (dfaEnv nfaA) {2} = some ([], 1) ∧
      nfaA.accept ∈ ({2} : Finset ℕ) := by decide

/-- C2: the NFA matcher and the spec-modelled DFA matcher disagree already on
pattern a with input "a": the NFA matcher accepts, while the DFA produced by
Dfa::from has an empty accept set, so the DFA matcher rejects everything. -/
theorem C2_matchers_disagree :
    regexMatches nfaA ['a'] = true ∧ matchesDfa (dfaFrom nfaA) ['a'] = false := by decide

/-- C4: for the NFA of "ab", the seed set closure({1}) = {1, 3} records the
raw successor {4} under 'a', but step({1,3}, 'a') (the code's own
states_next) is {4, 5}; the recorded set {4} is not epsilon-closed. -/
theorem C4_successor_not_closed_bug :
    Nfa.next nfaAB nfaAB.start NfaTrans.Epsilon = {1, 3} ∧
      alookup (Nfa.transition_map_of nfaAB {1, 3}) 'a' = some {4} ∧
      Nfa.states_next nfaAB {1, 3} (NfaTrans.Char 'a') = {4, 5} ∧
      Nfa.epsilon_next nfaAB {4} ≠ {4} := by decide

theorem alookup_append {α β : Type} [DecidableEq α] (m1 m2 : List (α × β)) (x : α) :
    alookup (m1 ++ m2) x =
      match alookup m1 x with
      | some v => some v
      | none => alookup m2 x := by
  induction m1 with
  | nil => simp [alookup]
  | cons hd t ih =>
    obtain ⟨k, v⟩ := hd
    by_cases hx : x = k
    · simp [alookup, if_pos hx]
    · simp only [List.cons_append, alookup, if_neg hx]
      exact ih

theorem alookup_isSome_of_mem_akeys {α β : Type} [DecidableEq α]
    (m : List (α × β)) (x : α) (h : x ∈ akeys m) : (alookup m x).isSome := by
  induction m with
  | nil => simp [akeys] at h
  | cons hd t ih =>
    obtain ⟨k, v⟩ := hd
    by_cases hx : x = k
    · simp [alookup, if_pos hx]
    · simp only [akeys, List.map_cons, List.mem_cons] at h
      rcases h with h1 | h2
      · exact absurd h1 hx
      · simp only [alookup, if_neg hx]
        exact ih (by simpa [akeys] using h2)

theorem mem_ainsert_elem {α β : Type} [DecidableEq α] (m : List (α × β)) (k : α) (v : β)
    (p : α × β) (hp : p ∈ ainsert m k v) : p = (k, v) ∨ p ∈ m := by
  induction m with
  | nil => simpa [ainsert] using hp
  | cons hd t ih =>
    obtain ⟨k', v'⟩ := hd
    by_cases hk : k = k'
    · subst hk
      rw [show ainsert ((k, v') :: t) k v = (k, v) :: t by simp [ainsert]] at hp
      rcases List.mem_cons.mp hp with h1 | h2
      · exact Or.inl h1
      · exact Or.inr (List.mem_cons_of_mem _ h2)
    · rw [show ainsert ((k', v') :: t) k v = (k', v') :: ainsert t k v by
        simp [ainsert, hk]] at hp
      rcases List.mem_cons.mp hp with h1 | h2
      · exact Or.inr (by simp [h1])
      · rcases ih h2 with h3 | h4
        · exact Or.inl h3
        · exact Or.inr (List.mem_cons_of_mem _ h4)

namespace Nfa

theorem subset_charRow (tt : TransTable) (acc : Finset ℕ) : acc ⊆ charRow tt acc := by
  induction tt with
  | nil => exact Finset.Subset.refl _
  | cons q t ih =>
    obtain ⟨ql, qd⟩ := q
    cases ql with
    | Epsilon => exact ih
    | Char c => exact ih.trans (by simp only [charRow, List.foldr_cons]
                                   exact Finset.subset_union_right)

theorem mem_charRow (tt : TransTable) (acc : Finset ℕ) (q : NfaTrans × Finset ℕ)
    (hq : q ∈ tt) (c : Char) (hc : q.1 = NfaTrans.Char c) : q.2 ⊆ charRow tt acc := by
  induction tt with
  | nil => simp at hq
  | cons hd t ih =>
    rcases List.mem_cons.mp hq with h1 | h2
    · subst h1
      obtain ⟨ql, qd⟩ := q
      simp only at hc
      subst hc
      simp only [charRow, List.foldr_cons]
      exact Finset.subset_union_left
    · refine (ih h2).trans ?_
      obtain ⟨hl, hdv⟩ := hd
      cases hl with
      | Epsilon => exact Finset.Subset.refl _
      | Char c2 => simp only [charRow, List.foldr_cons]
                   exact Finset.subset_union_right

theorem row_subset_allCharTargets (nfa : Nfa) :
    ∀ p ∈ nfa.states, ∀ q ∈ p.2, ∀ c, q.1 = NfaTrans.Char c →
      q.2 ⊆ allCharTargets nfa := by
  unfold allCharTargets
  generalize nfa.states = l
  induction l with
  | nil => simp
  | cons hd t ih =>
    intro p hp q hq c hc
    rcases List.mem_cons.mp hp with h1 | h2
    · subst h1
      simp only [List.foldr_cons]
      exact mem_charRow _ _ q hq c hc
    · refine (ih p h2 q hq c hc).trans ?_
      simp only [List.foldr_cons]
      exact subset_charRow _ _

theorem rowMerge_values (U : Finset ℕ) :
    ∀ (tt : TransTable) (m : List (Char × Finset ℕ)),
      (∀ q ∈ tt, ∀ c, q.1 = NfaTrans.Char c → q.2 ⊆ U) →
      (∀ p ∈ m, p.2 ⊆ U) →
      ∀ p ∈ rowMerge m tt, p.2 ⊆ U := by
  intro tt
  induction tt with
  | nil => intro m _ hm p hp; exact hm p hp
  | cons q t ih =>
    intro m htt hm p hp
    obtain ⟨ql, qd⟩ := q
    cases ql with
    | Epsilon =>
      rw [show rowMerge m ((NfaTrans.Epsilon, qd) :: t) = rowMerge m t from rfl] at hp
      exact ih m (fun q' hq' => htt q' (List.mem_cons_of_mem _ hq')) hm p hp
    | Char c =>
      have hqd : qd ⊆ U := htt (NfaTrans.Char c, qd) (List.mem_cons_self _ _) c rfl
      cases hal : alookup m c with
      | some nxts =>
        rw [show rowMerge m ((NfaTrans.Char c, qd) :: t) =
          rowMerge (match alookup m c with
            | some nxts => ainsert m c (nxts ∪ qd)
            | none => ainsert m c qd) t from rfl, hal] at hp
        refine ih _ (fun q' hq' => htt q' (List.mem_cons_of_mem _ hq')) ?_ p hp
        intro p' hp'
        rcases mem_ainsert_elem _ _ _ _ hp' with h1 | h2
        · subst h1
          exact Finset.union_subset (hm _ (alookup_mem _ _ _ hal)) hqd
        · exact hm p' h2
      | none =>
        rw [show rowMerge m ((NfaTrans.Char c, qd) :: t) =
          rowMerge (match alookup m c with
            | some nxts => ainsert m c (nxts ∪ qd)
            | none => ainsert m c qd) t from rfl, hal] at hp
        refine ih _ (fun q' hq' => htt q' (List.mem_cons_of_mem _ hq')) ?_ p hp
        intro p' hp'
        rcases mem_ainsert_elem _ _ _ _ hp' with h1 | h2
        · subst h1
          exact hqd
        · exact hm p' h2

theorem transition_map_values (nfa : Nfa) (S : Finset ℕ) :
    ∀ cd ∈ transition_map_of nfa S, cd.2 ⊆ allCharTargets nfa := by
  have haux : ∀ (l : List (ℕ × TransTable)) (m : List (Char × Finset ℕ)),
      (∀ p ∈ l, ∀ q ∈ p.2, ∀ c, q.1 = NfaTrans.Char c → q.2 ⊆ allCharTargets nfa) →
      (∀ p ∈ m, p.2 ⊆ allCharTargets nfa) →
      ∀ p ∈ l.foldl (fun nexts p => if p.1 ∈ S then rowMerge nexts p.2 else nexts) m,
        p.2 ⊆ allCharTargets nfa := by
    intro l
    induction l with
    | nil => intro m _ hm p hp; exact hm p hp
    | cons hd t ih =>
      intro m hl hm p hp
      simp only [List.foldl_cons] at hp
      by_cases hmem : hd.1 ∈ S
      · rw [if_pos hmem] at hp
        refine ih _ (fun p' hp' => hl p' (List.mem_cons_of_mem _ hp')) ?_ p hp
        exact rowMerge_values _ hd.2 m
          (fun q hq c hc => hl hd (List.mem_cons_self _ _) q hq c hc) hm
      · rw [if_neg hmem] at hp
        exact ih _ (fun p' hp' => hl p' (List.mem_cons_of_mem _ hp')) hm p hp
  exact haux nfa.states [] (row_subset_allCharTargets nfa) (by simp)

end Nfa

theorem envInsert_fresh (env : EnvT) (ns : Finset ℕ) (tm : List (Char × Finset ℕ))
    (h : alookup env ns = none) :
    envInsert env ns tm = env ++ [(ns, (tm, env.length))] := by
  unfold envInsert
  rw [h]

theorem processNew_keys (nfa : Nfa) :
    ∀ (new : List (Finset ℕ)) (env : EnvT), (∀ S ∈ new, alookup env S = none) →
      new.Nodup → akeys (processNew nfa env new).1 = akeys env ++ new := by
  intro new
  induction new with
  | nil => intro env _ _; simp [processNew]
  | cons ns rest ih =>
    intro env hfresh hnodup
    simp only [processNew]
    rw [envInsert_fresh env ns _ (hfresh ns (List.mem_cons_self _ _))]
    rw [ih (env ++ [(ns, (Nfa.transition_map_of nfa ns, env.length))]) ?_ hnodup.of_cons]
    · simp [akeys]
    · intro S hS
      rw [alookup_append]
      rw [hfresh S (List.mem_cons_of_mem _ hS)]
      have hne : S ≠ ns := by
        intro h
        subst h
        exact (List.nodup_cons.mp hnodup).1 hS
      simp [alookup, hne]

theorem processNew_entries (nfa : Nfa) :
    ∀ (new : List (Finset ℕ)) (env : EnvT), (∀ S ∈ new, alookup env S = none) →
      new.Nodup →
      ∀ e ∈ (processNew nfa env new).1,
        e ∈ env ∨ (e.1 ∈ new ∧ e.2.1 = Nfa.transition_map_of nfa e.1) := by
  intro new
  induction new with
  | nil => intro env _ _ e he; exact Or.inl he
  | cons ns rest ih =>
    intro env hfresh hnodup e he
    simp only [processNew] at he
    rw [envInsert_fresh env ns _ (hfresh ns (List.mem_cons_self _ _))] at he
    have hfresh' : ∀ S ∈ rest,
        alookup (env ++ [(ns, (Nfa.transition_map_of nfa ns, env.length))]) S = none := by
      intro S hS
      rw [alookup_append, hfresh S (List.mem_cons_of_mem _ hS)]
      have hne : S ≠ ns := by
        intro h
        subst h
        exact (List.nodup_cons.mp hnodup).1 hS
      simp [alookup, hne]
    rcases ih _ hfresh' hnodup.of_cons e he with h1 | h2
    · rcases List.mem_append.mp h1 with h3 | h4
      · exact Or.inl h3
      · right
        simp only [List.mem_singleton] at h4
        subst h4
        exact ⟨List.mem_cons_self _ _, rfl⟩
    · exact Or.inr ⟨List.mem_cons_of_mem _ h2.1, h2.2⟩

theorem processNew_nexts_complete (nfa : Nfa) :
    ∀ (new : List (Finset ℕ)) (env : EnvT),
      ∀ ns ∈ new, ∀ cd ∈ Nfa.transition_map_of nfa ns,
        cd.2 ∈ (processNew nfa env new).2 := by
  intro new
  induction new with
  | nil => intro env ns hns; simp at hns
  | cons ns0 rest ih =>
    intro env ns hns cd hcd
    simp only [processNew]
    rcases List.mem_cons.mp hns with h1 | h2
    · subst h1
      exact List.mem_append.mpr (Or.inl (List.mem_map.mpr ⟨cd, hcd, rfl⟩))
    · exact List.mem_append.mpr (Or.inr (ih _ ns h2 cd hcd))

theorem processNew_nexts_sound (nfa : Nfa) :
    ∀ (new : List (Finset ℕ)) (env : EnvT),
      ∀ D ∈ (processNew nfa env new).2,
        ∃ ns ∈ new, ∃ cd ∈ Nfa.transition_map_of nfa ns, cd.2 = D := by
  intro new
  induction new with
  | nil => intro env D hD; simp [processNew] at hD
  | cons ns0 rest ih =>
    intro env D hD
    simp only [processNew] at hD
    rcases List.mem_append.mp hD with h1 | h2
    · rcases List.mem_map.mp h1 with ⟨cd, hcd, heq⟩
      exact ⟨ns0, List.mem_cons_self _ _, cd, hcd, heq⟩
    · rcases ih _ D h2 with ⟨ns, hns, cd, hcd, heq⟩
      exact ⟨ns, List.mem_cons_of_mem _ hns, cd, hcd, heq⟩

theorem processNew_ids (nfa : Nfa) :
    ∀ (new : List (Finset ℕ)) (env : EnvT), (∀ S ∈ new, alookup env S = none) →
      new.Nodup → env.map (fun e => e.2.2) = List.range env.length →
      (processNew nfa env new).1.map (fun e => e.2.2) =
        List.range (processNew nfa env new).1.length := by
  intro new
  induction new with
  | nil => intro env _ _ h; exact h
  | cons ns rest ih =>
    intro env hfresh hnodup hids
    simp only [processNew]
    rw [envInsert_fresh env ns _ (hfresh ns (List.mem_cons_self _ _))]
    refine ih _ ?_ hnodup.of_cons ?_
    · intro S hS
      rw [alookup_append, hfresh S (List.mem_cons_of_mem _ hS)]
      have hne : S ≠ ns := by
        intro h
        subst h
        exact (List.nodup_cons.mp hnodup).1 hS
      simp [alookup, hne]
    · rw [List.map_append, hids, List.length_append]
      simp [List.range_succ]

theorem dfaLoop_nil (nfa : Nfa) (fuel : ℕ) (env : EnvT) (nstats : Finset (Finset ℕ)) :
    dfaLoop nfa fuel env nstats [] = env := by
  cases fuel <;> simp [dfaLoop]

/-- Worklist invariant of the subset construction: when the seen-set is the
union of the processed keys and the pending worklist, every recorded
destination has been seen, the worklist is fresh and duplicate-free, all seen
sets live inside the universe, the ids are exactly the insertion indices and
the keys are duplicate-free, then (with enough fuel for the loop to drain the
worklist) the final state map contains every seen set as a key, every recorded
destination is a key, ids are exactly the indices, and keys stay
duplicate-free. -/
theorem dfaLoop_inv (nfa : Nfa) :
    ∀ (fuel : ℕ) (env : EnvT) (nstats : Finset (Finset ℕ)) (new : List (Finset ℕ)),
      (∀ S ∈ akeys env, S ∈ nstats) →
      (∀ S ∈ new, S ∈ nstats) →
      (∀ S ∈ nstats, S ∈ akeys env ∨ S ∈ new) →
      (∀ e ∈ env, ∀ cd ∈ e.2.1, cd.2 ∈ nstats) →
      new.Nodup →
      (∀ S ∈ new, alookup env S = none) →
      (∀ S ∈ nstats, S ⊆ dfaUniverse nfa) →
      (env.map (fun e => e.2.2) = List.range env.length) →
      (akeys env).Nodup →
      (((dfaUniverse nfa).powerset \ nstats).card + 2 ≤ fuel) →
      (∀ S ∈ nstats, S ∈ akeys (dfaLoop nfa fuel env nstats new)) ∧
      (∀ e ∈ dfaLoop nfa fuel env nstats new, ∀ cd ∈ e.2.1,
        cd.2 ∈ akeys (dfaLoop nfa fuel env nstats new)) ∧
      ((dfaLoop nfa fuel env nstats new).map (fun e => e.2.2) =
        List.range (dfaLoop nfa fuel env nstats new).length) ∧
      (akeys (dfaLoop nfa fuel env nstats new)).Nodup := by
  intro fuel
  induction fuel with
  | zero => intro env nstats new _ _ _ _ _ _ _ _ _ hfuel; omega
  | succ f ih =>
    intro env nstats new h1 h2 h3 h4 h5 h6 h7 h8 h9 hfuel
    by_cases hnew : new = []
    · subst hnew
      rw [dfaLoop_nil]
      have hc1 : ∀ S ∈ nstats, S ∈ akeys env := by
        intro S hS
        rcases h3 S hS with h | h
        · exact h
        · simp at h
      exact ⟨hc1, fun e he cd hcd => hc1 _ (h4 e he cd hcd), h8, h9⟩
    · have hstep : dfaLoop nfa (f + 1) env nstats new =
        dfaLoop nfa f (processNew nfa env new).1
          (nstats ∪ ((processNew nfa env new).2.dedup.filter
            (fun s => s ∉ nstats)).toFinset)
          ((processNew nfa env new).2.dedup.filter (fun s => s ∉ nstats)) := by
        simp [dfaLoop, hnew]
      have hkeys' := processNew_keys nfa new env h6 h5
      have hids' := processNew_ids nfa new env h6 h5 h8
      have hdisj : ∀ S ∈ new, S ∉ akeys env := by
        intro S hS hmem
        have := alookup_isSome_of_mem_akeys env S hmem
        rw [h6 S hS] at this
        simp at this
      have hnodupkeys' : (akeys (processNew nfa env new).1).Nodup := by
        rw [hkeys']
        exact h9.append h5 (fun a ha hb => hdisj a hb ha)
      have hmemkeys' : ∀ S, S ∈ akeys (processNew nfa env new).1 ↔
          S ∈ akeys env ∨ S ∈ new := by
        intro S
        rw [hkeys', List.mem_append]
      have hmemnew' : ∀ S, S ∈ (processNew nfa env new).2.dedup.filter
          (fun s => s ∉ nstats) ↔ S ∈ (processNew nfa env new).2 ∧ S ∉ nstats := by
        intro S
        simp [List.mem_filter, List.mem_dedup]
      have h1' : ∀ S ∈ akeys (processNew nfa env new).1,
          S ∈ nstats ∪ ((processNew nfa env new).2.dedup.filter
            (fun s => s ∉ nstats)).toFinset := by
        intro S hS
        rcases (hmemkeys' S).mp hS with h | h
        · exact Finset.mem_union_left _ (h1 S h)
        · exact Finset.mem_union_left _ (h2 S h)
      have h2' : ∀ S ∈ (processNew nfa env new).2.dedup.filter (fun s => s ∉ nstats),
          S ∈ nstats ∪ ((processNew nfa env new).2.dedup.filter
            (fun s => s ∉ nstats)).toFinset := by
        intro S hS
        exact Finset.mem_union_right _ (List.mem_toFinset.mpr hS)
      have h3' : ∀ S ∈ nstats ∪ ((processNew nfa env new).2.dedup.filter
            (fun s => s ∉ nstats)).toFinset,
          S ∈ akeys (processNew nfa env new).1 ∨
            S ∈ (processNew nfa env new).2.dedup.filter (fun s => s ∉ nstats) := by
        intro S hS
        rcases Finset.mem_union.mp hS with h | h
        · rcases h3 S h with h' | h'
          · exact Or.inl ((hmemkeys' S).mpr (Or.inl h'))
          · exact Or.inl ((hmemkeys' S).mpr (Or.inr h'))
        · exact Or.inr (List.mem_toFinset.mp h)
      have h4' : ∀ e ∈ (processNew nfa env new).1, ∀ cd ∈ e.2.1,
          cd.2 ∈ nstats ∪ ((processNew nfa env new).2.dedup.filter
            (fun s => s ∉ nstats)).toFinset := by
        intro e he cd hcd
        rcases processNew_entries nfa new env h6 h5 e he with h | h
        · exact Finset.mem_union_left _ (h4 e h cd hcd)
        · have hin : cd.2 ∈ (processNew nfa env new).2 := by
            rw [h.2] at hcd
            exact processNew_nexts_complete nfa new env e.1 h.1 cd hcd
          by_cases hst : cd.2 ∈ nstats
          · exact Finset.mem_union_left _ hst
          · refine Finset.mem_union_right _ (List.mem_toFinset.mpr ?_)
            exact (hmemnew' cd.2).mpr ⟨hin, hst⟩
      have h5' : ((processNew nfa env new).2.dedup.filter
          (fun s => s ∉ nstats)).Nodup :=
        (List.nodup_dedup _).filter _
      have h6' : ∀ S ∈ (processNew nfa env new).2.dedup.filter (fun s => s ∉ nstats),
          alookup (processNew nfa env new).1 S = none := by
        intro S hS
        have hnot : S ∉ nstats := ((hmemnew' S).mp hS).2
        apply alookup_eq_none_of_not_mem_akeys
        intro hmem
        rcases (hmemkeys' S).mp hmem with h | h
        · exact hnot (h1 S h)
        · exact hnot (h2 S h)
      have h7' : ∀ S ∈ nstats ∪ ((processNew nfa env new).2.dedup.filter
            (fun s => s ∉ nstats)).toFinset, S ⊆ dfaUniverse nfa := by
        intro S hS
        rcases Finset.mem_union.mp hS with h | h
        · exact h7 S h
        · have hin : S ∈ (processNew nfa env new).2 :=
            ((hmemnew' S).mp (List.mem_toFinset.mp h)).1
          rcases processNew_nexts_sound nfa new env S hin with ⟨ns, _, cd, hcd, heq⟩
          rw [← heq]
          exact (Nfa.transition_map_values nfa ns cd hcd).trans Finset.subset_union_left
      by_cases hnew' : (processNew nfa env new).2.dedup.filter (fun s => s ∉ nstats) = []
      · rw [hstep, hnew', dfaLoop_nil]
        have hc1 : ∀ S ∈ nstats ∪ ((processNew nfa env new).2.dedup.filter
            (fun s => s ∉ nstats)).toFinset, S ∈ akeys (processNew nfa env new).1 := by
          intro S hS
          rcases h3' S hS with h | h
          · exact h
          · rw [hnew'] at h
            simp at h
        refine ⟨?_, ?_, hids', hnodupkeys'⟩
        · intro S hS
          exact hc1 S (Finset.mem_union_left _ hS)
        · intro e he cd hcd
          exact hc1 cd.2 (h4' e he cd hcd)
      · obtain ⟨x, hx⟩ := List.exists_mem_of_ne_nil _ hnew'
        have hxnot : x ∉ nstats := ((hmemnew' x).mp hx).2
        have hxuniv : x ⊆ dfaUniverse nfa := by
          have hin : x ∈ (processNew nfa env new).2 := ((hmemnew' x).mp hx).1
          rcases processNew_nexts_sound nfa new env x hin with ⟨ns, _, cd, hcd, heq⟩
          rw [← heq]
          exact (Nfa.transition_map_values nfa ns cd hcd).trans Finset.subset_union_left
        have hss : (dfaUniverse nfa).powerset \ (nstats ∪ ((processNew nfa env new).2.dedup.filter
            (fun s => s ∉ nstats)).toFinset) ⊂ (dfaUniverse nfa).powerset \ nstats := by
          refine Finset.ssubset_iff_of_subset ?_ |>.mpr ?_
          · exact Finset.sdiff_subset_sdiff (Finset.Subset.refl _) Finset.subset_union_left
          · refine ⟨x, Finset.mem_sdiff.mpr ⟨Finset.mem_powerset.mpr hxuniv, hxnot⟩, ?_⟩
            simp only [Finset.mem_sdiff, not_and, not_not]
            intro _
            exact Finset.mem_union_right _ (List.mem_toFinset.mpr hx)
        have hcard := Finset.card_lt_card hss
        have hres := ih (processNew nfa env new).1
          (nstats ∪ ((processNew nfa env new).2.dedup.filter
            (fun s => s ∉ nstats)).toFinset)
          ((processNew nfa env new).2.dedup.filter (fun s => s ∉ nstats))
          h1' h2' h3' h4' h5' h6' h7' hids' hnodupkeys' (by omega)
        rw [hstep]
        exact ⟨fun S hS => hres.1 S (Finset.mem_union_left _ hS), hres.2.1,
          hres.2.2.1, hres.2.2.2⟩

theorem dfaEnv_eq (nfa : Nfa) :
    dfaEnv nfa = dfaLoop nfa (2 ^ (dfaUniverse nfa).card + 2) []
      {Nfa.next nfa nfa.start NfaTrans.Epsilon}
      [Nfa.next nfa nfa.start NfaTrans.Epsilon] := rfl

/-- The completed state map of the subset construction contains the seed
closure as a key, every recorded destination set as a key, assigns the dense
ids 0, 1, ... in insertion order, and has duplicate-free keys. -/
theorem dfaEnv_inv (nfa : Nfa) :
    (Nfa.next nfa nfa.start NfaTrans.Epsilon ∈ akeys (dfaEnv nfa)) ∧
    (∀ e ∈ dfaEnv nfa, ∀ cd ∈ e.2.1, cd.2 ∈ akeys (dfaEnv nfa)) ∧
    ((dfaEnv nfa).map (fun e => e.2.2) = List.range (dfaEnv nfa).length) ∧
    (akeys (dfaEnv nfa)).Nodup := by
  have h := dfaLoop_inv nfa (2 ^ (dfaUniverse nfa).card + 2) []
    {Nfa.next nfa nfa.start NfaTrans.Epsilon}
    [Nfa.next nfa nfa.start NfaTrans.Epsilon]
    (by simp [akeys])
    (by
      intro S hS
      simp only [List.mem_singleton] at hS
      subst hS
      exact Finset.mem_singleton_self _)
    (by
      intro S hS
      simp only [Finset.mem_singleton] at hS
      subst hS
      exact Or.inr (List.mem_singleton_self _))
    (by simp)
    (by simp)
    (by intro S _; rfl)
    (by
      intro S hS
      simp only [Finset.mem_singleton] at hS
      subst hS
      exact Finset.subset_union_right)
    (by simp)
    (by simp [akeys])
    (by
      have hle : ((dfaUniverse nfa).powerset \
          {Nfa.next nfa nfa.start NfaTrans.Epsilon}).card ≤
          (dfaUniverse nfa).powerset.card :=
        Finset.card_le_card (Finset.sdiff_subset)
      rw [Finset.card_powerset] at hle
      omega)
  rw [dfaEnv_eq]
  refine ⟨h.1 _ (Finset.mem_singleton_self _), h.2.1, h.2.2.1, h.2.2.2⟩

/-- C10: when the worklist loop of Dfa::from terminates, the seed state set
and every state set appearing as a destination in any recorded transition map
are keys of the state map, so the unwrap lookups of into_dfa_states and the
lookup of the start set never hit a missing key. -/
theorem C10_dfa_lookups_total (nfa : Nfa) :
    (alookup (dfaEnv nfa) (Nfa.next nfa nfa.start NfaTrans.Epsilon)).isSome ∧
    ∀ e ∈ dfaEnv nfa, ∀ cd ∈ e.2.1, (alookup (dfaEnv nfa) cd.2).isSome := by
  obtain ⟨hstart, hdest, -, -⟩ := dfaEnv_inv nfa
  exact ⟨alookup_isSome_of_mem_akeys _ _ hstart,
    fun e he cd hcd => alookup_isSome_of_mem_akeys _ _ (hdest e he cd hcd)⟩

/-- Witness for C10 at the NFA of pattern a: the entry of {1} records the
destination {2} under 'a', and {2} is a key of the state map. -/
theorem C10_witness :
    (alookup (dfaEnv nfaA) (Nfa.next nfaA nfaA.start NfaTrans.Epsilon)).isSome = true ∧
    (({1}, ([('a', ({2} : Finset ℕ))], 0)) ∈ dfaEnv nfaA) ∧
    (('a', ({2} : Finset ℕ)) ∈ [('a', ({2} : Finset ℕ))]) ∧
    (alookup (dfaEnv nfaA) {2}).isSome = true :=
  ⟨(C10_dfa_lookups_total nfaA).1, by decide, by decide,
    (C10_dfa_lookups_total nfaA).2 ({1}, ([('a', {2})], 0)) (by decide)
      ('a', {2}) (by decide)⟩

/-- C8: two state sets discovered by the subset construction carry the same
DFA state id iff they are equal as sets of NFA state ids; identity is decided
by value equality even though the multiplicative hash collides on distinct
sets such as {2, 6} and {3, 4} (equal products). -/
theorem C8_state_set_identity (nfa : Nfa) (S T : Finset ℕ)
    (tmS tmT : List (Char × Finset ℕ)) (i j : ℕ)
    (hS : (S, (tmS, i)) ∈ dfaEnv nfa) (hT : (T, (tmT, j)) ∈ dfaEnv nfa) :
    (i = j ↔ S = T) ∧ hashNfaStateSet {2, 6} = hashNfaStateSet {3, 4} := by
  obtain ⟨-, -, hids, hnodup⟩ := dfaEnv_inv nfa
  have hmapnodup : ((dfaEnv nfa).map (fun e => e.2.2)).Nodup := by
    rw [hids]
    exact List.nodup_range _
  have hkeysnodup : ((dfaEnv nfa).map Prod.fst).Nodup := hnodup
  refine ⟨⟨?_, ?_⟩, by decide⟩
  · intro hij
    exact congrArg Prod.fst (List.inj_on_of_nodup_map hmapnodup hS hT hij)
  · intro hST
    exact congrArg (fun e => e.2.2) (List.inj_on_of_nodup_map hkeysnodup hS hT hST)

/-- Witness for C8 at the NFA of pattern a: entries ({1}, id 0) and
({2}, id 1) are distinct sets with distinct ids. -/
theorem C8_witness :
    (({1}, ([('a', ({2} : Finset ℕ))], 0)) ∈ dfaEnv nfaA) ∧
    (({2}, (([] : List (Char × Finset ℕ)), 1)) ∈ dfaEnv nfaA) ∧
    (((0 : ℕ) = 1 ↔ ({1} : Finset ℕ) = {2}) ∧
      hashNfaStateSet {2, 6} = hashNfaStateSet {3, 4}) :=
  ⟨by decide, by decide,
    C8_state_set_identity nfaA {1} {2} [('a', {2})] [] 0 1 (by decide) (by decide)⟩
